import Mathlib

/-!
Verification of the pyston serialization layer (serializer.py, patch.py,
converters/__init__.py, utils/compatibility.py, utils/helpers.py) against its
natural-language specification.  Python values are shallowly embedded as the
inductive type `PyVal`; each Python function relevant to a claim is translated
into a computable Lean definition that mirrors its control flow.
-/

namespace Pyston

/-- Shallow embedding of the plain Python values that flow through the
serializer and the converters: `None`, booleans, integers, strings, lists
(also standing for tuples and sets already ordered by iteration), and dicts
(ordered key/value association lists, mirroring `dict`/`OrderedDict`). -/
inductive PyVal where
  | none
  | bool (b : Bool)
  | int (n : Int)
  | str (s : String)
  | list (xs : List PyVal)
  | dict (xs : List (String × PyVal))
deriving Repr

mutual

/-- Structural equality of embedded Python values, modelling the `==`
comparison Python performs on plain data values. -/
def PyVal.beq : PyVal → PyVal → Bool
  | .none, .none => true
  | .bool a, .bool b => a == b
  | .int a, .int b => a == b
  | .str a, .str b => a == b
  | .list a, .list b => PyVal.beqList a b
  | .dict a, .dict b => PyVal.beqDict a b
  | _, _ => false

def PyVal.beqList : List PyVal → List PyVal → Bool
  | [], [] => true
  | a :: as, b :: bs => PyVal.beq a b && PyVal.beqList as bs
  | _, _ => false

def PyVal.beqDict : List (String × PyVal) → List (String × PyVal) → Bool
  | [], [] => true
  | (ka, va) :: as, (kb, vb) :: bs => ka == kb && PyVal.beq va vb && PyVal.beqDict as bs
  | _, _ => false

end

mutual

theorem PyVal.beq_iff : ∀ a b : PyVal, PyVal.beq a b = true ↔ a = b
  | .none, b => by cases b <;> simp [PyVal.beq]
  | .bool a, b => by cases b <;> simp [PyVal.beq]
  | .int a, b => by cases b <;> simp [PyVal.beq]
  | .str a, b => by cases b <;> simp [PyVal.beq]
  | .list a, b => by
      cases b <;> simp [PyVal.beq]
      exact PyVal.beqList_iff a _
  | .dict a, b => by
      cases b <;> simp [PyVal.beq]
      exact PyVal.beqDict_iff a _

theorem PyVal.beqList_iff : ∀ a b : List PyVal, PyVal.beqList a b = true ↔ a = b
  | [], b => by cases b <;> simp [PyVal.beqList]
  | x :: xs, b => by
      cases b with
      | nil => simp [PyVal.beqList]
      | cons y ys =>
          simp [PyVal.beqList, Bool.and_eq_true, PyVal.beq_iff x y, PyVal.beqList_iff xs ys]

theorem PyVal.beqDict_iff : ∀ a b : List (String × PyVal), PyVal.beqDict a b = true ↔ a = b
  | [], b => by cases b <;> simp [PyVal.beqDict]
  | (k, v) :: xs, b => by
      cases b with
      | nil => simp [PyVal.beqDict]
      | cons y ys =>
          obtain ⟨k2, v2⟩ := y
          simp [PyVal.beqDict, Bool.and_eq_true, PyVal.beq_iff v v2, PyVal.beqDict_iff xs ys,
                and_assoc]

end

instance : DecidableEq PyVal := fun a b =>
  decidable_of_iff (PyVal.beq a b = true) (PyVal.beq_iff a b)

/-- The three serialization modes of `Serializer.SERIALIZATION_TYPES`
(`Enum('VERBOSE', 'RAW', 'BOTH')` in serializer.py). -/
inductive SerializationType where
  | VERBOSE
  | RAW
  | BOTH
deriving DecidableEq, Repr

/-- `RawVerboseValue` from serializer.py: pairs a raw value with its
human-readable rendering. -/
structure RawVerboseValue where
  raw_value : PyVal
  verbose_value : PyVal
deriving DecidableEq, Repr

/-- `RawVerboseValue.get_value` (serializer.py lines 65-73): returns the raw
value in RAW mode, the verbose value in VERBOSE mode, and otherwise (BOTH
mode) the raw value alone when the two compare equal, or the dict
`{_raw: raw, _verbose: verbose}` when they differ. -/
def RawVerboseValue.get_value (v : RawVerboseValue) (serialization_format : SerializationType) :
    PyVal :=
  if serialization_format = SerializationType.RAW then
    v.raw_value
  else if serialization_format = SerializationType.VERBOSE then
    v.verbose_value
  else if PyVal.beq v.raw_value v.verbose_value then
    v.raw_value
  else
    PyVal.dict [("_raw", v.raw_value), ("_verbose", v.verbose_value)]

/-- Claim C3: for every pair of values, `RawVerboseValue.get_value` returns
the raw value under RAW mode, the verbose value under VERBOSE mode, and under
BOTH mode the mapping `{"_raw": raw, "_verbose": verbose}` when raw differs
from verbose and the bare raw value when they are equal. -/
theorem c3_raw_verbose_get_value (raw verbose : PyVal) :
    (RawVerboseValue.mk raw verbose).get_value SerializationType.RAW = raw ∧
    (RawVerboseValue.mk raw verbose).get_value SerializationType.VERBOSE = verbose ∧
    (RawVerboseValue.mk raw verbose).get_value SerializationType.BOTH =
      (if raw = verbose then raw
       else PyVal.dict [("_raw", raw), ("_verbose", verbose)]) := by
  refine ⟨rfl, rfl, ?_⟩
  by_cases h : raw = verbose
  · simp [RawVerboseValue.get_value, h, (PyVal.beq_iff verbose verbose).2 rfl]
  · have hb : PyVal.beq raw verbose = false := by
      rcases hb2 : PyVal.beq raw verbose with _ | _
      · rfl
      · exact absurd ((PyVal.beq_iff raw verbose).1 hb2) h
    simp [RawVerboseValue.get_value, h, hb]

/-- A single apostrophe character, used when rendering the Python `repr` of a
string (kept out of the source text as a character code). -/
def pyQuote : String := String.singleton (Char.ofNat 39)

mutual

/-- Django `force_text` applied to an embedded value, i.e. Python `str()`:
strings pass through, integers print in decimal, booleans print as
`True`/`False`, `None` prints as `None`; containers print in Python literal
style (no claim exercises the container case, every claim path reaching
`force_text` hands it a scalar). -/
def forceText : PyVal → String
  | .none => "None"
  | .bool b => if b then "True" else "False"
  | .int n => toString n
  | .str s => s
  | .list xs => "[" ++ String.intercalate ", " (forceTextReprList xs) ++ "]"
  | .dict xs => "\x7b" ++ String.intercalate ", " (forceTextReprDict xs) ++ "\x7d"

def forceTextRepr : PyVal → String
  | .str s => pyQuote ++ s ++ pyQuote
  | v => forceText v

def forceTextReprList : List PyVal → List String
  | [] => []
  | x :: xs => forceTextRepr x :: forceTextReprList xs

def forceTextReprDict : List (String × PyVal) → List String
  | [] => []
  | (k, v) :: xs => (pyQuote ++ k ++ pyQuote ++ ": " ++ forceTextRepr v) :: forceTextReprDict xs

end

/-- Python truthiness of an embedded value: `None`, `False`, `0`, the empty
string and empty containers are falsy, everything else is truthy. -/
def pyTruthy : PyVal → Bool
  | .none => false
  | .bool b => b
  | .int n => n != 0
  | .str s => s ≠ ""
  | .list xs => !xs.isEmpty
  | .dict xs => !xs.isEmpty

mutual

/-- `GeneratorConverter.render_value` (converters/__init__.py lines 263-272),
shared by the CSV/XLSX/PDF converters.  A dict renders as
`(key: value, key: value)` over its entries in order; a list/tuple/set renders
as its elements joined by newline when `first` is true (top level) and as
`(a, b)` (joined by a comma and a space between parentheses) otherwise; any
other value renders as its forced text. -/
def render_value : PyVal → Bool → String
  | .dict xs, _ =>
      "(" ++ String.intercalate ", " (renderDictEntries xs) ++ ")"
  | .list xs, first =>
      if first then String.intercalate "\n" (renderListEntries xs)
      else "(" ++ String.intercalate ", " (renderListEntries xs) ++ ")"
  | v, _ => forceText v

def renderListEntries : List PyVal → List String
  | [] => []
  | x :: xs => render_value x false :: renderListEntries xs

def renderDictEntries : List (String × PyVal) → List String
  | [] => []
  | (k, v) :: xs => (k ++ ": " ++ render_value v false) :: renderDictEntries xs

end

mutual

/-- `GeneratorConverter._get_recursive_value_from_row` (converters/__init__.py
lines 249-261): walks the row along the key path, descending into dicts by key
(an absent key becomes the empty string), broadcasting over list/tuple/set
elements, returning the value when the path is exhausted and the empty string
when a non-container is hit with path remaining.  (The `LazySerializedData`
unwrapping branch concerns a wrapper that never occurs among plain embedded
values and is not modelled.) -/
def getRecursiveValueFromRow : PyVal → List String → PyVal
  | data, [] => data
  | .dict xs, k :: rest =>
      getRecursiveValueFromRow ((xs.lookup k).getD (PyVal.str "")) rest
  | .list xs, k :: rest => PyVal.list (getRecursiveValueFromRowList xs (k :: rest))
  | _, _ :: _ => PyVal.str ""

/-- Broadcast of `_get_recursive_value_from_row` over the elements of a
list/tuple/set value. -/
def getRecursiveValueFromRowList : List PyVal → List String → List PyVal
  | [], _ => []
  | x :: xs, path => getRecursiveValueFromRow x path :: getRecursiveValueFromRowList xs path

end

/-- `GeneratorConverter._get_value_from_row` (converters/__init__.py lines
274-275): renders the value extracted along the key path, substituting the
empty string when that value is falsy (the Python `or` idiom). -/
def getValueFromRow (data : PyVal) (key_path : List String) : String :=
  render_value
    (if pyTruthy (getRecursiveValueFromRow data key_path) then
       getRecursiveValueFromRow data key_path
     else PyVal.str "")
    true

/-- Claim C9: whenever the value extracted along the key path is falsy (zero,
`False`, `None`, the empty string or an empty collection), the rendered cell
of the tabular converters is the empty string, not the textual rendering of
the value. -/
theorem c9_falsy_cell_is_empty (data : PyVal) (key_path : List String)
    (h : pyTruthy (getRecursiveValueFromRow data key_path) = false) :
    getValueFromRow data key_path = "" := by
  simp [getValueFromRow, h, render_value, forceText]

/-- Claim C9 witness: the row `{"a": 0}` with field path `["a"]` extracts the
falsy raw value `0` and renders the empty cell (not `"0"`). -/
theorem c9_falsy_cell_is_empty_witness :
    pyTruthy (getRecursiveValueFromRow (PyVal.dict [("a", PyVal.int 0)]) ["a"]) = false ∧
    getValueFromRow (PyVal.dict [("a", PyVal.int 0)]) ["a"] = "" :=
  ⟨by simp [getRecursiveValueFromRow, pyTruthy, List.lookup],
   c9_falsy_cell_is_empty (PyVal.dict [("a", PyVal.int 0)]) ["a"]
     (by simp [getRecursiveValueFromRow, pyTruthy, List.lookup])⟩

theorem renderListEntries_eq_map (xs : List PyVal) :
    renderListEntries xs = xs.map (fun v => render_value v false) := by
  induction xs with
  | nil => simp [renderListEntries]
  | cons x xs ih => simp [renderListEntries, ih]

theorem renderDictEntries_eq_map (xs : List (String × PyVal)) :
    renderDictEntries xs = xs.map (fun kv => kv.1 ++ ": " ++ render_value kv.2 false) := by
  induction xs with
  | nil => simp [renderDictEntries]
  | cons x xs ih => obtain ⟨k, v⟩ := x; simp [renderDictEntries, ih]

/-- Claim C7 counterexample: the row `{"tags": ["x", "y"]}` with field path
`["tags"]` renders in nested position as `"(x, y)"` (parenthesized), not as
the `"x, y"` the claim states. -/
theorem c7_render_value_counterexample :
    render_value
      (getRecursiveValueFromRow (PyVal.dict [("tags", PyVal.list [PyVal.str "x", PyVal.str "y"])])
        ["tags"]) false = "(x, y)" ∧
    ("(x, y)" : String) ≠ "x, y" := by
  constructor
  · simp [getRecursiveValueFromRow, List.lookup, render_value, renderListEntries, forceText,
          String.intercalate]
    decide
  · decide

/-- Claim C7 (amended): lists/tuples/sets at the top level render joined by
newline and in nested position render parenthesized joined by a comma and a
space, mappings render as `(key: value, key: value)` over their entries in
order, and any other value renders as its forced text; in particular the
extracted `["x", "y"]` renders as `"(x, y)"` (with parentheses) in nested
position and as `"x\ny"` at top level. -/
theorem c7_render_value (xs : List PyVal) (entries : List (String × PyVal)) (v : PyVal)
    (first : Bool) (hl : ∀ ys, v ≠ PyVal.list ys) (hd : ∀ ys, v ≠ PyVal.dict ys) :
    render_value (PyVal.list xs) true =
      String.intercalate "\n" (xs.map (fun x => render_value x false)) ∧
    render_value (PyVal.list xs) false =
      "(" ++ String.intercalate ", " (xs.map (fun x => render_value x false)) ++ ")" ∧
    render_value (PyVal.dict entries) first =
      "(" ++ String.intercalate ", "
        (entries.map (fun kv => kv.1 ++ ": " ++ render_value kv.2 false)) ++ ")" ∧
    render_value v first = forceText v ∧
    render_value (PyVal.list [PyVal.str "x", PyVal.str "y"]) false = "(x, y)" ∧
    render_value (PyVal.list [PyVal.str "x", PyVal.str "y"]) true = "x\ny" := by
  refine ⟨?_, ?_, ?_, ?_, ?_, ?_⟩
  · simp [render_value, renderListEntries_eq_map]
  · simp [render_value, renderListEntries_eq_map]
  · simp [render_value, renderDictEntries_eq_map]
  · cases v with
    | list ys => exact absurd rfl (hl ys)
    | dict ys => exact absurd rfl (hd ys)
    | none => simp [render_value]
    | bool b => simp [render_value]
    | int n => simp [render_value]
    | str s => simp [render_value]
  · simp [render_value, renderListEntries, forceText, String.intercalate]
    decide
  · simp [render_value, renderListEntries, forceText, String.intercalate]
    decide

/-- Claim C7 witness: the amended statement at the scalar `5` with the
non-container hypotheses discharged concretely. -/
theorem c7_render_value_witness :
    render_value (PyVal.int 5) true = forceText (PyVal.int 5) :=
  (c7_render_value [] [] (PyVal.int 5) true (fun _ h => PyVal.noConfusion h)
    (fun _ h => PyVal.noConfusion h)).2.2.2.1

/-- XML character-data escaping as performed by the SAX generator backing
`SimplerXMLGenerator` (`&` before `<` and `>`). -/
def xmlEscapeChar (c : Char) : String :=
  if c = '&' then "&amp;"
  else if c = '<' then "&lt;"
  else if c = '>' then "&gt;"
  else String.singleton c

def xmlEscape (s : String) : String :=
  String.join (s.data.map xmlEscapeChar)

mutual

/-- `XMLConverter._to_xml` (converters/__init__.py lines 161-177): a
list/tuple/set/generator emits one `<resource>` element per item, a dict emits
one element per key named after the key, and any other value is emitted as
escaped character data of its forced text.  (The `LazySerializedData`
branch concerns a wrapper that never occurs among plain embedded values.) -/
def toXml : PyVal → String
  | .list xs => toXmlList xs
  | .dict xs => toXmlDict xs
  | v => xmlEscape (forceText v)

def toXmlList : List PyVal → String
  | [] => ""
  | x :: xs => "<resource>" ++ toXml x ++ "</resource>" ++ toXmlList xs

def toXmlDict : List (String × PyVal) → String
  | [] => ""
  | (k, v) :: xs => "<" ++ k ++ ">" ++ toXml v ++ "</" ++ k ++ ">" ++ toXmlDict xs

end

/-- The document prologue written by `xml.startDocument()` for the
`utf-8`-encoded generator. -/
def xmlDeclaration : String := "<?xml version=\"1.0\" encoding=\"utf-8\"?>\n"

/-- `XMLConverter._encode` (converters/__init__.py lines 179-194): `None`
encodes to the empty string; any other value encodes to the XML declaration
followed by the whole rendering wrapped in a top-level `<response>` element. -/
def XMLConverter.encode (data : PyVal) : String :=
  if data = PyVal.none then ""
  else xmlDeclaration ++ "<response>" ++ toXml data ++ "</response>"

/-- Claim C10: the XML converter encodes `None` to the empty string (no XML
declaration, no `<response>` root), while every non-`None` input produces a
document starting with the XML declaration and carrying a top-level
`<response>` element. -/
theorem c10_xml_encode (d : PyVal) (hd : d ≠ PyVal.none) :
    XMLConverter.encode PyVal.none = "" ∧
    ∃ body, XMLConverter.encode d =
      "<?xml version=\"1.0\" encoding=\"utf-8\"?>\n" ++ "<response>" ++ body ++ "</response>" := by
  refine ⟨by simp [XMLConverter.encode], ⟨toXml d, ?_⟩⟩
  simp [XMLConverter.encode, hd, xmlDeclaration]

/-- Claim C10 witness: the mapping `{"item": {"name": "x"}}` encodes to a
declaration-prefixed document rooted at `<response>`. -/
theorem c10_xml_encode_witness :
    XMLConverter.encode PyVal.none = "" ∧
    ∃ body,
      XMLConverter.encode (PyVal.dict [("item", PyVal.dict [("name", PyVal.str "x")])]) =
        "<?xml version=\"1.0\" encoding=\"utf-8\"?>\n" ++ "<response>" ++ body ++ "</response>" :=
  c10_xml_encode (PyVal.dict [("item", PyVal.dict [("name", PyVal.str "x")])])
    (fun h => PyVal.noConfusion h)

/-! ## Converter registry and content negotiation (converters/__init__.py)

The registry `converters` is an `OrderedDict` mapping each format name to its
converter; it is embedded as an association list of (format, media type)
pairs in configuration order.  `register_converters` fills it once from the
settings, so the functions below take the already-populated registry as an
argument. -/

/-- First-occurrence deduplication of a list, keeping the first copy of every
element (the accumulator holds the elements already seen). -/
def dedupFirstGo (seen : List String) : List String → List String
  | [] => []
  | x :: xs => if x ∈ seen then dedupFirstGo seen xs else x :: dedupFirstGo (x :: seen) xs

/-- `get_default_converter_name` (lines 37-44): the first-configured format
name (`list(converters.keys())[0]`); `Option.none` models the `IndexError` an
empty registry would raise. -/
def get_default_converter_name (registry : List (String × String)) : Option String :=
  registry.head?.map Prod.fst

/-- `get_converter` (lines 47-57): returns the registered converter (embedded
by its media type) or raises `ValueError` for an unknown format. -/
def get_converter (registry : List (String × String)) (result_format : String) :
    Except String String :=
  match registry.lookup result_format with
  | some media => Except.ok media
  | Option.none => Except.error ("No converter found for type " ++ result_format)

/-- The `converter_map` built inside `get_converter_name_from_request`,
mapping a media type back to a format name with Python-dict semantics (a later
entry with the same media type overwrites an earlier one). -/
def converterMapLookup (registry : List (String × String)) (media : String) : Option String :=
  (registry.reverse.find? (fun p => p.2 == media)).map Prod.fst

/-- The `supported_mime_types` list handed to `mimeparse.best_match`: the set
of registered media types (first-occurrence order standing for the arbitrary
iteration order of the Python set) with the default converter's media type
appended again as a preference signal when it is truthy. -/
def supportedMimeTypes (registry : List (String × String)) (default_converter_name : String) :
    List String :=
  let base := dedupFirstGo [] (registry.map Prod.snd)
  match (registry.find? (fun p => p.1 == default_converter_name)).map Prod.snd with
  | some m => if m = "" then base else base ++ [m]
  | Option.none => base

/-- `get_converter_name_from_request` (lines 60-97).  `mimeparseAvailable`
models whether the optional `mimeparse` import succeeds; `bestMatch` models
`mimeparse.best_match`, an external matcher that either returns a media-type
string or raises `ValueError` (`Except.error`); `restContext` models
`request._rest_context`.  On a matcher error the `except ValueError: pass`
leaves `preferred_content_type` at the default converter's media type, and an
unmatched media type falls back through `converter_map.get`. -/
def get_converter_name_from_request (registry : List (String × String))
    (mimeparseAvailable : Bool) (restContext : List (String × String))
    (bestMatch : List String → String → Except Unit String)
    (input_serialization : Bool) : Option String :=
  let context_key := if input_serialization then "content_type" else "accept"
  match get_default_converter_name registry with
  | Option.none => Option.none
  | some default_converter_name =>
      if mimeparseAvailable && (restContext.lookup context_key).isSome then
        let header := (restContext.lookup context_key).getD ""
        let preferred0 :=
          (registry.find? (fun p => p.1 == default_converter_name)).map Prod.snd
        let preferred :=
          match bestMatch (supportedMimeTypes registry default_converter_name) header with
          | Except.ok m => some m
          | Except.error _ => preferred0
        match preferred with
        | some m => some ((converterMapLookup registry m).getD default_converter_name)
        | Option.none => some default_converter_name
      else
        some default_converter_name

theorem converterMapLookup_head (dn dm : String) (rest : List (String × String))
    (h : dm ∉ rest.map Prod.snd) :
    converterMapLookup ((dn, dm) :: rest) dm = some dn := by
  unfold converterMapLookup
  rw [List.reverse_cons, List.find?_append]
  have hrev : rest.reverse.find? (fun p => p.2 == dm) = Option.none := by
    rw [List.find?_eq_none]
    intro p hp
    simp only [beq_iff_eq]
    intro hpd
    exact h (List.mem_map.2 ⟨p, List.mem_reverse.1 hp, hpd⟩)
  simp [hrev]

/-- Claim C5: `get_converter` on an unregistered format (`"bogus"`) fails with
the unknown-format `ValueError`, whereas `get_converter_name_from_request` is
total and returns the default converter name — the first-configured format —
on every negotiation failure: missing MIME parser, missing header, matcher
error (given the registered media types are pairwise distinct, as in the
shipped configuration), or a best match that maps to no registered
converter. -/
theorem c5_converter_errors (dn dm : String) (rest : List (String × String))
    (restContext : List (String × String))
    (bestMatch : List String → String → Except Unit String) (input_serialization : Bool)
    (hbogus : ((dn, dm) :: rest).lookup "bogus" = Option.none) :
    get_converter ((dn, dm) :: rest) "bogus" =
      Except.error "No converter found for type bogus" ∧
    get_default_converter_name ((dn, dm) :: rest) = some dn ∧
    get_converter_name_from_request ((dn, dm) :: rest) false restContext bestMatch
      input_serialization = some dn ∧
    (restContext.lookup (if input_serialization then "content_type" else "accept") =
        Option.none →
      get_converter_name_from_request ((dn, dm) :: rest) true restContext bestMatch
        input_serialization = some dn) ∧
    (∀ header,
      restContext.lookup (if input_serialization then "content_type" else "accept") =
        some header →
      bestMatch (supportedMimeTypes ((dn, dm) :: rest) dn) header = Except.error () →
      dm ∉ rest.map Prod.snd →
      get_converter_name_from_request ((dn, dm) :: rest) true restContext bestMatch
        input_serialization = some dn) ∧
    (∀ header m,
      restContext.lookup (if input_serialization then "content_type" else "accept") =
        some header →
      bestMatch (supportedMimeTypes ((dn, dm) :: rest) dn) header = Except.ok m →
      converterMapLookup ((dn, dm) :: rest) m = Option.none →
      get_converter_name_from_request ((dn, dm) :: rest) true restContext bestMatch
        input_serialization = some dn) := by
  refine ⟨?_, rfl, ?_, ?_, ?_, ?_⟩
  · simp [get_converter, hbogus]
  · simp [get_converter_name_from_request, get_default_converter_name]
  · intro hctx
    simp [get_converter_name_from_request, get_default_converter_name, hctx]
  · intro header hctx hbm hdm
    simp only [get_converter_name_from_request, get_default_converter_name, List.head?,
               Option.map_some', hctx, Option.isSome_some, Bool.and_true, Option.getD_some,
               if_true]
    rw [hbm]
    simp [converterMapLookup_head dn dm rest hdm]
  · intro header m hctx hbm hmap
    simp only [get_converter_name_from_request, get_default_converter_name, List.head?,
               Option.map_some', hctx, Option.isSome_some, Bool.and_true, Option.getD_some,
               if_true]
    rw [hbm]
    simp [hmap]

/-- Claim C5 witness: with the registry `[("json", "application/json")]`, an
always-failing matcher, and a request carrying an `accept` header, the lookup
of `"bogus"` errors and negotiation still yields `"json"`. -/
theorem c5_converter_errors_witness :
    get_converter [("json", "application/json")] "bogus" =
      Except.error "No converter found for type bogus" ∧
    get_converter_name_from_request [("json", "application/json")] true
      [("accept", "text/html")] (fun _ _ => Except.error ()) false = some "json" := by
  have h := c5_converter_errors "json" "application/json" [] [("accept", "text/html")]
    (fun _ _ => Except.error ()) false (by simp [List.lookup])
  exact ⟨h.1, h.2.2.2.2.1 "text/html" (by simp [List.lookup]) rfl (by simp)⟩

/-! ## Model field-visibility options (patch.py, utils/compatibility.py) -/

/-- The slice of a Django model field descriptor consulted by
`get_last_parent_pk_field_name` (utils/compatibility.py lines 139-143). -/
structure CField where
  name : String
  primary_key : Bool
  is_relation : Bool
  auto_created : Bool
deriving DecidableEq, Repr

/-- The predicate of the loop in `get_last_parent_pk_field_name`:
`field.primary_key and (not field.is_relation or not field.auto_created)`. -/
def isLastParentPkField (f : CField) : Bool :=
  f.primary_key && (!f.is_relation || !f.auto_created)

/-- `get_last_parent_pk_field_name` (utils/compatibility.py lines 139-143):
the first field in declaration order that is a primary key and not an
auto-created relation; raises `RuntimeError` when none exists. -/
def get_last_parent_pk_field_name (fields : List CField) : Except String String :=
  match fields.find? isLastParentPkField with
  | some f => Except.ok f.name
  | Option.none => Except.error "Last parent field name was not found (cannot happen)"

/-- `merge_iterable(a, b)` (patch.py lines 9-11): `sorted(set(a + b), key=(a +
b).index)`, i.e. the distinct elements of `a ++ b` ordered by first
occurrence (two distinct elements always have distinct first indices, so the
sort is exactly first-occurrence order). -/
def merge_iterable (a b : List String) : List String :=
  dedupFirstGo [] (a ++ b)

theorem mem_dedupFirstGo (x : String) :
    ∀ (l seen : List String), x ∈ dedupFirstGo seen l ↔ x ∈ l ∧ x ∉ seen := by
  intro l
  induction l with
  | nil => intro seen; simp [dedupFirstGo]
  | cons y ys ih =>
      intro seen
      by_cases hy : y ∈ seen
      · simp only [dedupFirstGo, if_pos hy, ih seen, List.mem_cons]
        constructor
        · rintro ⟨hm, hs⟩; exact ⟨Or.inr hm, hs⟩
        · rintro ⟨hm | hm, hs⟩
          · exact absurd (hm ▸ hy) hs
          · exact ⟨hm, hs⟩
      · simp only [dedupFirstGo, if_neg hy, List.mem_cons, ih (y :: seen)]
        constructor
        · rintro (hx | ⟨hm, hs⟩)
          · exact ⟨Or.inl hx, hx ▸ hy⟩
          · exact ⟨Or.inr hm, fun hc => hs (Or.inr hc)⟩
        · rintro ⟨hx | hm, hs⟩
          · exact Or.inl hx
          · by_cases hxy : x = y
            · exact Or.inl hxy
            · exact Or.inr ⟨hm, by simp [hxy, hs]⟩

theorem nodup_dedupFirstGo : ∀ (l seen : List String), (dedupFirstGo seen l).Nodup := by
  intro l
  induction l with
  | nil => intro seen; simp [dedupFirstGo]
  | cons y ys ih =>
      intro seen
      by_cases hy : y ∈ seen
      · simpa [dedupFirstGo, hy] using ih seen
      · simp only [dedupFirstGo, if_neg hy, List.nodup_cons]
        refine ⟨fun hc => ?_, ih (y :: seen)⟩
        exact ((mem_dedupFirstGo y ys (y :: seen)).1 hc).2 (List.mem_cons_self y seen)

/-- The elements already seen after `dedupFirstGo` has consumed `l` starting
from `seen`. -/
def seenAfter (seen : List String) : List String → List String
  | [] => seen
  | x :: xs => seenAfter (if x ∈ seen then seen else x :: seen) xs

theorem mem_seenAfter (x : String) :
    ∀ (l seen : List String), x ∈ seenAfter seen l ↔ x ∈ seen ∨ x ∈ l := by
  intro l
  induction l with
  | nil => intro seen; simp [seenAfter]
  | cons y ys ih =>
      intro seen
      by_cases hy : y ∈ seen
      · simp only [seenAfter, if_pos hy, ih, List.mem_cons]
        constructor
        · rintro (hs | hm)
          · exact Or.inl hs
          · exact Or.inr (Or.inr hm)
        · rintro (hs | hm | hm)
          · exact Or.inl hs
          · exact Or.inl (hm ▸ hy)
          · exact Or.inr hm
      · simp only [seenAfter, if_neg hy, ih, List.mem_cons]
        tauto

theorem dedupFirstGo_append :
    ∀ (a b seen : List String),
      dedupFirstGo seen (a ++ b) = dedupFirstGo seen a ++ dedupFirstGo (seenAfter seen a) b := by
  intro a
  induction a with
  | nil => intro b seen; simp [dedupFirstGo, seenAfter]
  | cons y ys ih =>
      intro b seen
      by_cases hy : y ∈ seen
      · simp [dedupFirstGo, seenAfter, hy, ih]
      · simp [dedupFirstGo, seenAfter, hy, ih]

theorem dedupFirstGo_of_nodup :
    ∀ (l seen : List String), l.Nodup →
      dedupFirstGo seen l = l.filter (fun x => !(seen.contains x)) := by
  intro l
  induction l with
  | nil => intro seen _; simp [dedupFirstGo]
  | cons y ys ih =>
      intro seen hnd
      have hnd2 := (List.nodup_cons.1 hnd).2
      have hyys := (List.nodup_cons.1 hnd).1
      by_cases hy : y ∈ seen
      · rw [dedupFirstGo, if_pos hy, ih seen hnd2]
        simp [List.filter_cons, hy]
      · rw [dedupFirstGo, if_neg hy, ih (y :: seen) hnd2]
        have hfc : ys.filter (fun x => !((y :: seen).contains x)) =
            ys.filter (fun x => !(seen.contains x)) := by
          apply List.filter_congr
          intro a ha
          have hay : a ≠ y := fun hc => hyys (hc ▸ ha)
          simp [List.elem_eq_mem, hay]
        rw [hfc, List.filter_cons]
        simp [List.elem_eq_mem, hy]

/-- The optional per-model `RESTMeta` attributes read through `_getattr` in
`RESTOptions.__init__` (patch.py lines 21-35); `Option.none` models an absent
attribute falling back to the computed default. -/
structure RESTMetaOverrides where
  fields : Option (List String)
  default_fields : Option (List String)
  detailed_fields : Option (List String)
  general_fields : Option (List String)
  direct_serialization_fields : Option (List String)
  extra_fields : Option (List String)
  guest_fields : Option (List String)
deriving DecidableEq, Repr

/-- A model class that declares no `RESTMeta` attributes at all. -/
def noRESTMeta : RESTMetaOverrides :=
  ⟨Option.none, Option.none, Option.none, Option.none, Option.none, Option.none, Option.none⟩

/-- The attributes computed by `RESTOptions.__init__`. -/
structure RESTOptionsAttrs where
  default_fields : List String
  detailed_fields : List String
  general_fields : List String
  direct_serialization_fields : List String
  extra_fields : List String
  guest_fields : List String
deriving DecidableEq, Repr

/-- `RESTOptions.__init__` (patch.py lines 21-35).  `leftover` models the
iteration order in which Python enumerates the set difference
`set(fields) - set(self.detailed_fields) - set(self.general_fields) -
set(self.default_fields)` passed to `merge_iterable`; that order is
unspecified (set iteration order), so it is an explicit argument constrained
by `isSetDiffEnum` in the theorems.  A failing primary-key resolution
propagates as the fatal `RuntimeError`. -/
def restOptionsInit (modelFields : List CField) (ov : RESTMetaOverrides)
    (leftover : List String) : Except String RESTOptionsAttrs :=
  match get_last_parent_pk_field_name modelFields with
  | Except.error e => Except.error e
  | Except.ok pk_field_name =>
      let fields := ov.fields.getD []
      let default_fields := ov.default_fields.getD [pk_field_name, "_obj_name"]
      let detailed_fields := ov.detailed_fields.getD fields
      let general_fields := ov.general_fields.getD fields
      let direct_serialization_fields := ov.direct_serialization_fields.getD fields
      let extra_fields := merge_iterable (ov.extra_fields.getD []) leftover
      let guest_fields := ov.guest_fields.getD [pk_field_name, "_obj_name"]
      Except.ok ⟨default_fields, detailed_fields, general_fields, direct_serialization_fields,
                 extra_fields, guest_fields⟩

/-- `enum` is a possible iteration order of the Python set
`set(fields) - set(detailed) - set(general) - set(dflt)`: duplicate-free and
containing exactly the declared fields absent from the three other lists. -/
def isSetDiffEnum (fields detailed general dflt enum : List String) : Prop :=
  enum.Nodup ∧ ∀ x, x ∈ enum ↔ (x ∈ fields ∧ x ∉ detailed ∧ x ∉ general ∧ x ∉ dflt)

/-- Model fields for the C4 counterexample: a single plain primary key. -/
def c4ModelFields : List CField := [⟨"id", true, false, false⟩]

/-- RESTMeta for the C4 counterexample: the field list `("b", "a")` in this
declaration order, with empty detailed/general/default overrides so that both
declared fields are leftover. -/
def c4Overrides : RESTMetaOverrides :=
  ⟨some ["b", "a"], some [], some [], some [], Option.none, Option.none, Option.none⟩

/-- Claim C4 counterexample: with declared field list `("b", "a")` entirely
leftover, the set difference may enumerate as `["a", "b"]` (a valid iteration
order of the Python set), and then `extra_fields` is `["a", "b"]` — not the
declaration order `["b", "a"]` the claim requires. -/
theorem c4_extra_fields_counterexample :
    isSetDiffEnum ["b", "a"] [] [] [] ["a", "b"] ∧
    (restOptionsInit c4ModelFields c4Overrides ["a", "b"]).map
      (fun r => r.extra_fields) = Except.ok ["a", "b"] ∧
    (["a", "b"] : List String) ≠ ["b", "a"] := by
  refine ⟨⟨by decide, ?_⟩, by rfl, by decide⟩
  intro x
  simp only [List.mem_cons, List.not_mem_nil, not_false_iff, and_true, or_false]
  tauto

/-- Claim C4 (amended): `extra_fields` is `merge_iterable` of the declared
extra fields with the leftover declared fields; it is duplicate-free, its
membership is exactly the declared extras together with the declared fields
absent from detailed/general/default, and the deduplicated declared extras
come first in first-occurrence order followed by the leftover fields in the
(unspecified) set-iteration order; the leftover part is *not* guaranteed to
follow declaration order. -/
theorem c4_extra_fields (modelFields : List CField) (ov : RESTMetaOverrides)
    (enum : List String) (r : RESTOptionsAttrs)
    (hok : restOptionsInit modelFields ov enum = Except.ok r)
    (henum : isSetDiffEnum (ov.fields.getD []) r.detailed_fields r.general_fields
      r.default_fields enum) :
    r.extra_fields = merge_iterable (ov.extra_fields.getD []) enum ∧
    r.extra_fields.Nodup ∧
    (∀ x, x ∈ r.extra_fields ↔
      (x ∈ ov.extra_fields.getD [] ∨
       (x ∈ ov.fields.getD [] ∧ x ∉ r.detailed_fields ∧ x ∉ r.general_fields ∧
        x ∉ r.default_fields))) ∧
    r.extra_fields =
      dedupFirstGo [] (ov.extra_fields.getD []) ++
        enum.filter (fun x => !((ov.extra_fields.getD []).contains x)) := by
  have hextra : r.extra_fields = merge_iterable (ov.extra_fields.getD []) enum := by
    revert hok
    unfold restOptionsInit
    cases get_last_parent_pk_field_name modelFields with
    | error e => intro hok; cases hok
    | ok pk => intro hok; cases hok; rfl
  obtain ⟨hnd, hmem⟩ := henum
  refine ⟨hextra, ?_, ?_, ?_⟩
  · rw [hextra]; exact nodup_dedupFirstGo _ _
  · intro x
    rw [hextra]
    unfold merge_iterable
    rw [mem_dedupFirstGo]
    simp only [List.mem_append, List.not_mem_nil, not_false_iff, and_true]
    rw [hmem x]
  · rw [hextra]
    unfold merge_iterable
    rw [dedupFirstGo_append, dedupFirstGo_of_nodup enum _ hnd]
    congr 1
    apply List.filter_congr
    intro a ha
    have : a ∈ seenAfter [] (ov.extra_fields.getD []) ↔ a ∈ ov.extra_fields.getD [] := by
      rw [mem_seenAfter]
      simp
    simp [List.elem_eq_mem, this]

/-- Claim C4 witness: the amended statement at the counterexample input —
extras `[]`, leftover enumeration `["a", "b"]` — yielding the duplicate-free
`["a", "b"]`. -/
theorem c4_extra_fields_witness :
    (restOptionsInit c4ModelFields c4Overrides ["a", "b"] =
        Except.ok ⟨[], [], [], ["b", "a"], ["a", "b"], ["id", "_obj_name"]⟩) ∧
    (RESTOptionsAttrs.mk [] [] [] ["b", "a"] ["a", "b"]
      ["id", "_obj_name"]).extra_fields.Nodup := by
  have hok : restOptionsInit c4ModelFields c4Overrides ["a", "b"] =
      Except.ok ⟨[], [], [], ["b", "a"], ["a", "b"], ["id", "_obj_name"]⟩ := by rfl
  have henum : isSetDiffEnum (c4Overrides.fields.getD [])
      (RESTOptionsAttrs.mk [] [] [] ["b", "a"] ["a", "b"]
        ["id", "_obj_name"]).detailed_fields
      (RESTOptionsAttrs.mk [] [] [] ["b", "a"] ["a", "b"]
        ["id", "_obj_name"]).general_fields
      (RESTOptionsAttrs.mk [] [] [] ["b", "a"] ["a", "b"]
        ["id", "_obj_name"]).default_fields ["a", "b"] := by
    refine ⟨by decide, ?_⟩
    intro x
    simp only [c4Overrides, Option.getD_some, List.mem_cons, List.not_mem_nil,
               not_false_iff, and_true, or_false]
    tauto
  exact ⟨hok, (c4_extra_fields c4ModelFields c4Overrides ["a", "b"] _ hok henum).2.1⟩

/-- Claim C6: with no declared field overrides and a primary key resolving to
`"id"`, both `default_fields` and `guest_fields` equal `("id", "_obj_name")`;
and the primary-key name used is the name of the first field in declaration
order that is a primary key and not an auto-created relation. -/
theorem c6_default_guest_fields (modelFields : List CField) (r : RESTOptionsAttrs)
    (pre post : List CField) (f : CField)
    (hpk : get_last_parent_pk_field_name modelFields = Except.ok "id")
    (hok : restOptionsInit modelFields noRESTMeta [] = Except.ok r)
    (hsplit : modelFields = pre ++ f :: post)
    (hpre : ∀ g ∈ pre, isLastParentPkField g = false)
    (hf : isLastParentPkField f = true) :
    r.default_fields = ["id", "_obj_name"] ∧
    r.guest_fields = ["id", "_obj_name"] ∧
    get_last_parent_pk_field_name modelFields = Except.ok f.name := by
  have hdg : r.default_fields = ["id", "_obj_name"] ∧ r.guest_fields = ["id", "_obj_name"] := by
    revert hok
    unfold restOptionsInit
    rw [hpk]
    intro hok
    cases hok
    exact ⟨rfl, rfl⟩
  refine ⟨hdg.1, hdg.2, ?_⟩
  unfold get_last_parent_pk_field_name
  rw [hsplit, List.find?_append]
  have hpre2 : pre.find? isLastParentPkField = Option.none := by
    rw [List.find?_eq_none]
    intro g hg
    simp [hpre g hg]
  rw [hpre2]
  simp [List.find?_cons, hf]

/-- Claim C6 witness: a model whose first declared field is an auto-created
parent-link primary key and whose second field is the plain primary key
`"id"`; the resolution skips the parent link, picks `"id"`, and the computed
options carry `("id", "_obj_name")` for both default and guest fields. -/
theorem c6_default_guest_fields_witness :
    (restOptionsInit [⟨"parent_ptr", true, true, true⟩, ⟨"id", true, false, false⟩] noRESTMeta []
        = Except.ok ⟨["id", "_obj_name"], [], [], [], [], ["id", "_obj_name"]⟩) ∧
    (RESTOptionsAttrs.mk ["id", "_obj_name"] [] [] [] []
        ["id", "_obj_name"]).default_fields = ["id", "_obj_name"] := by
  have h := c6_default_guest_fields
    [⟨"parent_ptr", true, true, true⟩, ⟨"id", true, false, false⟩]
    ⟨["id", "_obj_name"], [], [], [], [], ["id", "_obj_name"]⟩
    [⟨"parent_ptr", true, true, true⟩] [] ⟨"id", true, false, false⟩
    (by rfl) (by rfl) (by decide) (by decide) (by decide)
  exact ⟨by rfl, h.1⟩

/-! ## Model serializer: resource-method fields (serializer.py)

`ModelSerializer._fields_to_python` walks the resolved fieldset and stores
`out[field_name] = self._field_to_python(...)` for every field.  A field that
dispatches to a resource callable goes through `_method_to_python`, which
invokes the callable only when every declared parameter can be supplied from
`{request, obj}` and otherwise falls through, returning Python `None`. -/

/-- A callable exposed by the bound resource: its declared parameter names
excluding `self` (`inspect.getargspec(method)[0][1:]`) and its behaviour when
invoked with keyword arguments (the result stands for the already-serialized
raw/verbose wrapping of the return value). -/
structure MethodDef where
  params : List String
  impl : List (String × PyVal) → PyVal

/-- The `fun_kwargs` dictionary of `_method_to_python` (serializer.py line
294): `{request, obj}` when the serialization call carries a request,
`{obj}` otherwise. -/
def funKwargs (hasRequest : Bool) (requestVal objVal : PyVal) : List (String × PyVal) :=
  if hasRequest then [("request", requestVal), ("obj", objVal)] else [("obj", objVal)]

/-- The `method_kwargs` dictionary filled by the loop in `_method_to_python`
(lines 296-298): every declared parameter name found in `fun_kwargs` is
stored under its name (a repeated name overwrites the same entry with the
same value, embedded by keeping the first copy). -/
def buildMethodKwargs (names : List String) (fk : List (String × PyVal)) :
    List (String × PyVal) :=
  names.foldl
    (fun acc n =>
      match fk.lookup n with
      | some v => if (acc.lookup n).isSome then acc else acc ++ [(n, v)]
      | Option.none => acc)
    []

/-- `ModelSerializer._method_to_python` (serializer.py lines 289-305): the
callable is invoked with the collected keyword arguments only when every
declared parameter was supplied (`len(method_kwargs_names) ==
len(method_kwargs)`); otherwise the function falls off its end and returns
Python `None`, embedded as `Option.none`. -/
def method_to_python (m : MethodDef) (hasRequest : Bool) (requestVal objVal : PyVal) :
    Option PyVal :=
  let method_kwargs := buildMethodKwargs m.params (funKwargs hasRequest requestVal objVal)
  if m.params.length = method_kwargs.length then some (m.impl method_kwargs) else Option.none

/-- `ModelSerializer.RESERVED_FIELDS` (serializer.py line 248). -/
def RESERVED_FIELDS : List String :=
  ["read", "update", "create", "delete", "model", "allowed_methods", "fields", "exclude"]

/-- `_get_resource_method_fields` (serializer.py lines 250-256) restricted to
one name: the callable attribute of the resource under that name, provided
the name is not reserved (`fields.flat() - self.RESERVED_FIELDS`). -/
def resourceMethodFields (resourceCallables : String → Option MethodDef) (f : String) :
    Option MethodDef :=
  if f ∈ RESERVED_FIELDS then Option.none else resourceCallables f

/-- `ModelSerializer._field_to_python` (serializer.py lines 359-382):
dispatch on the field name — `_obj_name` first, then resource callables, then
m2m fields, then concrete model fields, then the duck-typed fallback (all
later branches embedded by their already-computed serialized values).  A
resource callable that cannot be invoked contributes Python `None`. -/
def field_to_python (resourceCallables : String → Option MethodDef)
    (m2mFieldVals modelFieldVals : String → Option PyVal) (otherVal : String → PyVal)
    (objName : String) (hasRequest : Bool) (requestVal objVal : PyVal)
    (field_name : String) : PyVal :=
  if field_name = "_obj_name" then PyVal.str objName
  else
    match resourceMethodFields resourceCallables field_name with
    | some m => (method_to_python m hasRequest requestVal objVal).getD PyVal.none
    | Option.none =>
        match m2mFieldVals field_name with
        | some v => v
        | Option.none =>
            match modelFieldVals field_name with
            | some v => v
            | Option.none => otherVal field_name

/-- `ModelSerializer._fields_to_python` (serializer.py lines 384-402): one
`OrderedDict` entry per field of the resolved fieldset, unconditionally
assigned (`out[field_name] = self._field_to_python(...)`). -/
def fields_to_python (resourceCallables : String → Option MethodDef)
    (m2mFieldVals modelFieldVals : String → Option PyVal) (otherVal : String → PyVal)
    (objName : String) (hasRequest : Bool) (requestVal objVal : PyVal)
    (fieldset : List String) : List (String × PyVal) :=
  fieldset.map (fun f =>
    (f, field_to_python resourceCallables m2mFieldVals modelFieldVals otherVal objName
          hasRequest requestVal objVal f))

theorem buildMethodKwargs_length_le (fk : List (String × PyVal)) :
    ∀ (names : List String) (acc : List (String × PyVal)),
      (names.foldl
        (fun acc n =>
          match fk.lookup n with
          | some v => if (acc.lookup n).isSome then acc else acc ++ [(n, v)]
          | Option.none => acc) acc).length ≤
      acc.length + (names.countP (fun n => (fk.lookup n).isSome)) := by
  intro names
  induction names with
  | nil => intro acc; simp
  | cons n ns ih =>
      intro acc
      rw [List.foldl_cons, List.countP_cons]
      cases hfk : fk.lookup n with
      | none =>
          simp only [hfk]
          calc _ ≤ acc.length + ns.countP (fun n => (fk.lookup n).isSome) := ih acc
            _ ≤ _ := by simp [hfk] <;> omega
      | some v =>
          simp only [hfk]
          by_cases hacc : (acc.lookup n).isSome
          · simp only [hacc, if_true]
            calc _ ≤ acc.length + ns.countP (fun n => (fk.lookup n).isSome) := ih acc
              _ ≤ _ := by simp [hfk] <;> omega
          · simp only [hacc, if_false]
            calc _ ≤ (acc ++ [(n, v)]).length + ns.countP (fun n => (fk.lookup n).isSome) :=
                  ih (acc ++ [(n, v)])
              _ ≤ _ := by simp [hfk] <;> omega

theorem countP_lt_length_of_not {α : Type} (p : α → Bool) :
    ∀ (l : List α) (x : α), x ∈ l → p x = false → l.countP p < l.length := by
  intro l
  induction l with
  | nil => intro x hx; cases hx
  | cons y ys ih =>
      intro x hx hp
      rw [List.countP_cons, List.length_cons]
      rcases List.mem_cons.1 hx with h | h
      · have hpy : p y = false := h ▸ hp
        have hle := List.countP_le_length (p := p) (l := ys)
        simp [hpy] <;> omega
      · have hlt := ih x h hp
        by_cases hy : p y
        · simp [hy] <;> omega
        · simp [hy] <;> omega

/-- If some declared parameter is not suppliable from `fun_kwargs`, the
collected `method_kwargs` is strictly shorter than the parameter list, so the
length test of `_method_to_python` fails and the callable is not invoked. -/
theorem method_to_python_none (m : MethodDef) (hasRequest : Bool) (requestVal objVal : PyVal)
    (p : String) (hp : p ∈ m.params)
    (hlook : (funKwargs hasRequest requestVal objVal).lookup p = Option.none) :
    method_to_python m hasRequest requestVal objVal = Option.none := by
  unfold method_to_python
  have hlt : (buildMethodKwargs m.params (funKwargs hasRequest requestVal objVal)).length <
      m.params.length := by
    have hle := buildMethodKwargs_length_le (funKwargs hasRequest requestVal objVal) m.params []
    have hcnt : m.params.countP
        (fun n => ((funKwargs hasRequest requestVal objVal).lookup n).isSome) <
        m.params.length := by
      apply countP_lt_length_of_not _ m.params p hp
      simp [hlook]
    unfold buildMethodKwargs
    simp only [List.length_nil, Nat.zero_add] at hle
    omega
  simp [Nat.ne_of_gt hlt]

theorem lookup_map_self {β : Type} (g : String → β) :
    ∀ (l : List String) (f : String), f ∈ l →
      (l.map (fun x => (x, g x))).lookup f = some (g f) := by
  intro l
  induction l with
  | nil => intro f hf; cases hf
  | cons y ys ih =>
      intro f hf
      rcases List.mem_cons.1 hf with h | h
      · subst h
        simp [List.lookup]
      · by_cases hfy : f = y
        · subst hfy; simp [List.lookup]
        · have hbeq : (f == y) = false := beq_eq_false_iff_ne.2 hfy
          simp only [List.map_cons, List.lookup, hbeq]
          exact ih f h

/-- Claim C1 (amended): when a resource callable declares a parameter outside
the suppliable `{request, obj}` context, the field is *not* omitted from the
serialized output — `_fields_to_python` still emits the key, mapped to the
Python `None` that `_method_to_python` returns without invoking the
callable. -/
theorem c1_uninvokable_method_field (resourceCallables : String → Option MethodDef)
    (m2mFieldVals modelFieldVals : String → Option PyVal) (otherVal : String → PyVal)
    (objName : String) (hasRequest : Bool) (requestVal objVal : PyVal)
    (fieldset : List String) (f : String) (m : MethodDef) (p : String)
    (hin : f ∈ fieldset) (hobj : f ≠ "_obj_name") (hres : f ∉ RESERVED_FIELDS)
    (hm : resourceCallables f = some m) (hp : p ∈ m.params)
    (hout : (funKwargs hasRequest requestVal objVal).lookup p = Option.none) :
    (fields_to_python resourceCallables m2mFieldVals modelFieldVals otherVal objName
        hasRequest requestVal objVal fieldset).lookup f = some PyVal.none := by
  unfold fields_to_python
  rw [lookup_map_self _ fieldset f hin]
  unfold field_to_python resourceMethodFields
  rw [if_neg hobj, if_neg hres, hm]
  simp [method_to_python_none m hasRequest requestVal objVal p hp hout]

/-- The concrete resource of the C1 counterexample: a single callable
`secret` declaring a parameter `extra` beside `request` and `obj`. -/
def c1Callables : String → Option MethodDef := fun f =>
  if f = "secret" then some ⟨["request", "obj", "extra"], fun _ => PyVal.str "called"⟩
  else Option.none

/-- Claim C1 counterexample: serializing the fieldset `["secret"]` where the
resource callable `secret` requires the unsuppliable parameter `extra` still
emits the key `secret` (mapped to `None`) — the claim that the field does not
appear as a key in the output at all is false. -/
theorem c1_uninvokable_method_field_counterexample :
    fields_to_python c1Callables (fun _ => Option.none) (fun _ => Option.none)
      (fun _ => PyVal.none) "obj" true PyVal.none (PyVal.str "o") ["secret"] =
      [("secret", PyVal.none)] ∧
    ("secret", PyVal.none) ∈
      fields_to_python c1Callables (fun _ => Option.none) (fun _ => Option.none)
        (fun _ => PyVal.none) "obj" true PyVal.none (PyVal.str "o") ["secret"] := by
  have h : fields_to_python c1Callables (fun _ => Option.none) (fun _ => Option.none)
      (fun _ => PyVal.none) "obj" true PyVal.none (PyVal.str "o") ["secret"] =
      [("secret", PyVal.none)] := by
    rfl
  exact ⟨h, by rw [h]; exact List.mem_singleton.2 rfl⟩

/-- Claim C1 witness: the amended statement applied to the concrete
counterexample input. -/
theorem c1_uninvokable_method_field_witness :
    (fields_to_python c1Callables (fun _ => Option.none) (fun _ => Option.none)
      (fun _ => PyVal.none) "obj" true PyVal.none (PyVal.str "o") ["secret"]).lookup "secret" =
      some PyVal.none :=
  c1_uninvokable_method_field c1Callables (fun _ => Option.none) (fun _ => Option.none)
    (fun _ => PyVal.none) "obj" true PyVal.none (PyVal.str "o") ["secret"] "secret"
    ⟨["request", "obj", "extra"], fun _ => PyVal.str "called"⟩ "extra"
    (List.mem_singleton.2 rfl) (by decide) (by decide) (by rfl)
    (by simp) (by rfl)

/-! ## Model serializer: fieldset resolution and cycle guarding
(serializer.py `_get_fieldset`, `_to_python`) -/

/-- Modelled from the spec: the RFS field-set expression (whose source lives
outside the excerpt) is an ordered, duplicate-free sequence of field names;
`join` unions preserving first-occurrence order. -/
def rfsJoin (a b : List String) : List String := dedupFirstGo [] (a ++ b)

/-- Modelled from the spec: RFS `intersection` keeps the receiver fields that
occur in the other field set. -/
def rfsIntersection (a b : List String) : List String := a.filter (fun x => b.contains x)

/-- Modelled from the spec: RFS `subtract` removes the given fields. -/
def rfsSubtract (a b : List String) : List String := a.filter (fun x => !(b.contains x))

/-- Modelled from the spec: RFS `extend_fields_fieldsets` extends the
receiver with the default fields (defaults always included even when not
explicitly requested). -/
def rfsExtendFieldsFieldsets (a b : List String) : List String := rfsJoin a b

/-- The `_rest_meta` field lists consulted by the unbound (no-resource)
branch of `_get_fieldset` (serializer.py lines 436-448). -/
structure SRestMeta where
  extra_fields : List String
  default_general_fields : List String
  default_detailed_fields : List String
  direct_serialization_fields : List String
  guest_fields : List String
deriving DecidableEq, Repr

/-- The serialized value of one model field: a scalar (already reduced to its
raw plain value, as the RAW-mode raw/verbose wrapping does) or a to-one
relation to another object of the world, which `_field_to_python` recurses
into. -/
inductive SFieldVal where
  | scalar (v : PyVal)
  | rel (target : Nat)

/-- A model instance as seen by `ModelSerializer`: its `_meta.db_table`, its
primary-key value and primary-key field name, its `_rest_meta`, and its field
values. -/
structure SObj where
  db_table : String
  pk : Int
  pkFieldName : String
  restMeta : SRestMeta
  fieldVal : String → SFieldVal

/-- `_get_obj_serialization_name` (serializer.py lines 464-465):
`'{}__{}'.format(obj._meta.db_table, obj.pk)` rendered without braces. -/
def objSerializationName (obj : SObj) : String :=
  obj.db_table ++ "__" ++ toString obj.pk

/-- `ModelSerializer._get_fieldset` (serializer.py lines 422-462) for an
object not bound to a resource (the resource branch delegates to the external
resource layer; the cycle short-circuit on line 425 precedes both branches).
An already-serialized object immediately yields the singleton of its
primary-key field name (before the exclude subtraction); otherwise the
allowed and default field sets are computed from `_rest_meta`, joined with
any extended fieldset, intersected or extended with a requested fieldset, and
finally the excluded fields are subtracted. -/
def get_fieldset (obj : SObj) (extended_fieldset requested_fieldset : Option (List String))
    (exclude_fields : List String) (detailed direct_serialization : Bool)
    (serialized_objects : List String) : List String :=
  if objSerializationName obj ∈ serialized_objects then [obj.pkFieldName]
  else
    let allowed_fieldset :=
      if direct_serialization then
        match requested_fieldset with
        | some r => r
        | Option.none =>
            rfsJoin
              (rfsJoin (rfsJoin obj.restMeta.extra_fields obj.restMeta.default_general_fields)
                obj.restMeta.default_detailed_fields)
              obj.restMeta.direct_serialization_fields
      else obj.restMeta.guest_fields
    let default_fieldset :=
      if direct_serialization then obj.restMeta.direct_serialization_fields
      else obj.restMeta.guest_fields
    let allowed_fieldset :=
      match extended_fieldset with
      | some e => rfsJoin allowed_fieldset e
      | Option.none => allowed_fieldset
    let default_fieldset :=
      match extended_fieldset with
      | some e => rfsJoin default_fieldset e
      | Option.none => default_fieldset
    let fieldset :=
      match requested_fieldset with
      | some r => rfsExtendFieldsFieldsets (rfsIntersection r allowed_fieldset) default_fieldset
      | Option.none => rfsIntersection default_fieldset allowed_fieldset
    rfsSubtract fieldset exclude_fields

/-- `set.add` on the `serialized_objects` accumulator (the recursion passes a
copied, extended set downward). -/
def addSerialized (serialized_objects : List String) (name : String) : List String :=
  if name ∈ serialized_objects then serialized_objects else name :: serialized_objects

/-- `ModelSerializer._to_python` (serializer.py lines 467-477) for the direct
serialization entry point (`detailed=True`, `direct_serialization=True`, no
requested/extended fieldset, no excluded fields): the fieldset is resolved
against the incoming `serialized_objects`, the identity of the object is
added, and every field is emitted — scalars as their raw values, to-one
relations by recursion carrying the extended accumulator.  The explicit fuel
only bounds the recursion depth of the embedding; the examples never exhaust
it. -/
def objToPython (world : List SObj) : Nat → Nat → List String → PyVal
  | 0, _, _ => PyVal.none
  | fuel + 1, idx, serialized_objects =>
      match world[idx]? with
      | Option.none => PyVal.none
      | some obj =>
          let fieldset :=
            get_fieldset obj Option.none Option.none [] true true serialized_objects
          let serialized2 := addSerialized serialized_objects (objSerializationName obj)
          PyVal.dict (fieldset.map (fun f =>
            (f, match obj.fieldVal f with
                | SFieldVal.scalar v => v
                | SFieldVal.rel j => objToPython world fuel j serialized2)))

/-- Object A of the cyclic example: table `a`, primary key `1`, full field
set `id, name, b` where `b` references object B. -/
def objA : SObj where
  db_table := "a"
  pk := 1
  pkFieldName := "id"
  restMeta := ⟨[], ["id", "name", "b"], ["id", "name", "b"], ["id", "name", "b"],
               ["id", "_obj_name"]⟩
  fieldVal := fun f =>
    if f = "id" then SFieldVal.scalar (PyVal.int 1)
    else if f = "name" then SFieldVal.scalar (PyVal.str "A")
    else if f = "b" then SFieldVal.rel 1
    else SFieldVal.scalar PyVal.none

/-- Object B of the cyclic example: table `b`, primary key `2`, full field
set `id, title, a` where `a` references object A back. -/
def objB : SObj where
  db_table := "b"
  pk := 2
  pkFieldName := "id"
  restMeta := ⟨[], ["id", "title", "a"], ["id", "title", "a"], ["id", "title", "a"],
               ["id", "_obj_name"]⟩
  fieldVal := fun f =>
    if f = "id" then SFieldVal.scalar (PyVal.int 2)
    else if f = "title" then SFieldVal.scalar (PyVal.str "B")
    else if f = "a" then SFieldVal.rel 0
    else SFieldVal.scalar PyVal.none

/-- The two-object world with the reference cycle A → B → A. -/
def worldAB : List SObj := [objA, objB]

/-- A self-referencing object: its own relation field `self` points back at
itself. -/
def objC : SObj where
  db_table := "c"
  pk := 7
  pkFieldName := "id"
  restMeta := ⟨[], ["id", "self"], ["id", "self"], ["id", "self"], ["id", "_obj_name"]⟩
  fieldVal := fun f =>
    if f = "id" then SFieldVal.scalar (PyVal.int 7)
    else if f = "self" then SFieldVal.rel 0
    else SFieldVal.scalar PyVal.none

def worldC : List SObj := [objC]

/-- Claim C2: (1) an object whose identity string is already in
`serialized_objects` resolves to exactly the singleton fieldset of its
primary-key field, whatever the other arguments; (2) consequently the
recursion never re-emits a full field set for a revisited object — it emits
only the primary-key field value; (3) the cyclic world A → B → A emits B
fully once under A and only A's primary-key field on the back-reference; (4)
a self-referencing object emits its own primary-key field only, under its
relation field, showing its identity is recorded before its fields are
recursed. -/
theorem c2_cycle_guard (obj : SObj) (extended_fieldset requested_fieldset : Option (List String))
    (exclude_fields : List String) (detailed direct_serialization : Bool)
    (serialized_objects : List String) (world : List SObj) (fuel idx : Nat) (v : PyVal)
    (hmem : objSerializationName obj ∈ serialized_objects)
    (hidx : world[idx]? = some obj)
    (hpkv : obj.fieldVal obj.pkFieldName = SFieldVal.scalar v) :
    get_fieldset obj extended_fieldset requested_fieldset exclude_fields detailed
      direct_serialization serialized_objects = [obj.pkFieldName] ∧
    objToPython world (fuel + 1) idx serialized_objects =
      PyVal.dict [(obj.pkFieldName, v)] ∧
    objToPython worldAB 3 0 [] =
      PyVal.dict [("id", PyVal.int 1), ("name", PyVal.str "A"),
        ("b", PyVal.dict [("id", PyVal.int 2), ("title", PyVal.str "B"),
          ("a", PyVal.dict [("id", PyVal.int 1)])])] ∧
    objToPython worldC 2 0 [] =
      PyVal.dict [("id", PyVal.int 7), ("self", PyVal.dict [("id", PyVal.int 7)])] := by
  have hfs : get_fieldset obj extended_fieldset requested_fieldset exclude_fields detailed
      direct_serialization serialized_objects = [obj.pkFieldName] := by
    unfold get_fieldset
    rw [if_pos hmem]
  refine ⟨hfs, ?_, ?_, ?_⟩
  · rw [objToPython, hidx]
    simp only []
    rw [get_fieldset, if_pos hmem]
    simp [hpkv]
  · rfl
  · rfl

/-- Claim C2 witness: the worlds and the revisited-object rule at the
concrete self-loop input (object C already recorded in the accumulator). -/
theorem c2_cycle_guard_witness :
    get_fieldset objC Option.none Option.none [] true true ["c__7"] = ["id"] ∧
    objToPython worldC 1 0 ["c__7"] = PyVal.dict [("id", PyVal.int 7)] := by
  have h := c2_cycle_guard objC Option.none Option.none [] true true ["c__7"] worldC 0 0
    (PyVal.int 7) (List.mem_singleton.2 (by rfl)) (by rfl) (by rfl)
  exact ⟨h.1, h.2.1⟩

/-! ## JSON converter (converters/__init__.py `JSONConverter`)

`JSONConverter._encode_to_stream` delegates to `json.dump(data, os,
ensure_ascii=False, **options)` and `_decode` to `json.loads(data)`; both are
modelled here at the character level.  The encoder mirrors the default
separators `", "` and `": "` (the configurable options only insert
whitespace, which the decoder skips anyway); string escaping covers the
quote and backslash escapes the encoder emits for control-free strings.  The
decoder models strict `json.loads` on the object documents produced for
mappings of scalars — the shape claim C8 is about — including Python dict
construction semantics (a repeated key keeps its first position with the
last value). -/

/-- The opening brace character (kept out of the source text). -/
def lbrace : Char := Char.ofNat 123

/-- The closing brace character (kept out of the source text). -/
def rbrace : Char := Char.ofNat 125

/-- JSON string escaping for one character as emitted by `json.dump` with
`ensure_ascii=False` for control-free text: quote and backslash get a
backslash escape, everything else passes through. -/
def jsonEscapeChar (c : Char) : List Char :=
  if c = '"' then ['\\', '"']
  else if c = '\\' then ['\\', '\\']
  else [c]

def jsonEscapeChars : List Char → List Char
  | [] => []
  | c :: cs => jsonEscapeChar c ++ jsonEscapeChars cs

/-- A JSON string literal: the escaped content between double quotes. -/
def jsonEncodeStringChars (s : List Char) : List Char :=
  '"' :: jsonEscapeChars s ++ ['"']

/-- The decimal digit character for a digit value below ten. -/
def digitChar (d : Nat) : Char :=
  match d with
  | 0 => '0' | 1 => '1' | 2 => '2' | 3 => '3' | 4 => '4'
  | 5 => '5' | 6 => '6' | 7 => '7' | 8 => '8' | _ => '9'

/-- The big-endian decimal digit values of a natural number. -/
def natDigitsBE (m : Nat) : List Nat :=
  if m = 0 then [0] else (Nat.digits 10 m).reverse

/-- Decimal rendering of a natural number. -/
def natToChars (m : Nat) : List Char := (natDigitsBE m).map digitChar

/-- Decimal rendering of an integer as `json.dump` emits it. -/
def intToChars (n : Int) : List Char :=
  if n < 0 then '-' :: natToChars n.natAbs else natToChars n.natAbs

mutual

/-- `json.dump` with `ensure_ascii=False` and the default separators, over an
embedded value. -/
def jsonEncodeChars : PyVal → List Char
  | .none => 'n' :: 'u' :: 'l' :: 'l' :: []
  | .bool true => 't' :: 'r' :: 'u' :: 'e' :: []
  | .bool false => 'f' :: 'a' :: 'l' :: 's' :: 'e' :: []
  | .int n => intToChars n
  | .str s => jsonEncodeStringChars s.data
  | .list [] => '[' :: ']' :: []
  | .list (x :: xs) => '[' :: (jsonEncodeChars x ++ jsonEncodeListRest xs) ++ [']']
  | .dict [] => lbrace :: rbrace :: []
  | .dict ((k, v) :: kvs) =>
      lbrace ::
        (jsonEncodeStringChars k.data ++ ':' :: ' ' :: jsonEncodeChars v ++
          jsonEncodeDictRest kvs) ++ [rbrace]

def jsonEncodeListRest : List PyVal → List Char
  | [] => []
  | x :: xs => ',' :: ' ' :: jsonEncodeChars x ++ jsonEncodeListRest xs

def jsonEncodeDictRest : List (String × PyVal) → List Char
  | [] => []
  | (k, v) :: kvs =>
      ',' :: ' ' :: (jsonEncodeStringChars k.data ++ ':' :: ' ' :: jsonEncodeChars v) ++
        jsonEncodeDictRest kvs

end

/-- `JSONConverter` encoding to a string. -/
def jsonEncode (v : PyVal) : String := String.mk (jsonEncodeChars v)

/-- Whether a character counts as JSON whitespace. -/
def isJsonWs (c : Char) : Bool :=
  c = ' ' || c = '\t' || c = '\n' || c = '\r'

def skipWs : List Char → List Char
  | [] => []
  | c :: r => if isJsonWs c then skipWs r else c :: r

/-- One decoded escape character after a backslash (the `\\uXXXX` form never
occurs in the documents the encoder produces for control-free strings). -/
def jsonUnescape (e : Char) : Option Char :=
  if e = '"' then some '"'
  else if e = '\\' then some '\\'
  else if e = '/' then some '/'
  else if e = 'n' then some '\n'
  else if e = 't' then some '\t'
  else if e = 'r' then some '\r'
  else if e = 'b' then some (Char.ofNat 8)
  else if e = 'f' then some (Char.ofNat 12)
  else Option.none

/-- Strict JSON string-body parsing (after the opening quote): ends at an
unescaped quote, decodes backslash escapes, and rejects raw control
characters as strict `json.loads` does. -/
def parseStringBody : List Char → Option (List Char × List Char)
  | [] => Option.none
  | c :: rest =>
      if c = '"' then some ([], rest)
      else if c = '\\' then
        match rest with
        | [] => Option.none
        | e :: rest2 =>
            match jsonUnescape e with
            | some d =>
                match parseStringBody rest2 with
                | some (cs, r) => some (d :: cs, r)
                | Option.none => Option.none
            | Option.none => Option.none
      else if 32 ≤ c.toNat then
        match parseStringBody rest with
        | some (cs, r) => some (c :: cs, r)
        | Option.none => Option.none
      else Option.none

/-- The value of a decimal digit character, if it is one. -/
def digitVal (c : Char) : Option Nat :=
  if 48 ≤ c.toNat && c.toNat ≤ 57 then some (c.toNat - 48) else Option.none

/-- Longest digit prefix and its digit values. -/
def takeDigits : List Char → List Nat × List Char
  | [] => ([], [])
  | c :: rest =>
      match digitVal c with
      | some d =>
          match takeDigits rest with
          | (ds, r) => (d :: ds, r)
      | Option.none => ([], c :: rest)

/-- The natural number denoted by big-endian digit values. -/
def natFromDigits (ds : List Nat) : Nat := ds.foldl (fun acc d => acc * 10 + d) 0

/-- JSON integer token parsing (an optional minus sign and a nonempty digit
run). -/
def parseIntToken : List Char → Option (Int × List Char)
  | [] => Option.none
  | c :: rest =>
      if c = '-' then
        match takeDigits rest with
        | ([], _) => Option.none
        | (ds, r) => some (-(natFromDigits ds : Int), r)
      else
        match takeDigits (c :: rest) with
        | ([], _) => Option.none
        | (ds, r) => some ((natFromDigits ds : Int), r)

/-- JSON scalar value parsing: a string, `true`, `false`, `null` or an
integer (the scalars occurring in the mappings of claim C8). -/
def parseScalarValue (input : List Char) : Option (PyVal × List Char) :=
  match input with
  | [] => Option.none
  | c :: rest =>
      if c = '"' then
        match parseStringBody rest with
        | some (cs, r) => some (PyVal.str (String.mk cs), r)
        | Option.none => Option.none
      else if c = 't' then
        match rest with
        | 'r' :: 'u' :: 'e' :: r => some (PyVal.bool true, r)
        | _ => Option.none
      else if c = 'f' then
        match rest with
        | 'a' :: 'l' :: 's' :: 'e' :: r => some (PyVal.bool false, r)
        | _ => Option.none
      else if c = 'n' then
        match rest with
        | 'u' :: 'l' :: 'l' :: r => some (PyVal.none, r)
        | _ => Option.none
      else
        match parseIntToken (c :: rest) with
        | some (n, r) => some (PyVal.int n, r)
        | Option.none => Option.none

/-- One `"key": value` member of a JSON object. -/
def parseMember (input : List Char) : Option ((String × PyVal) × List Char) :=
  match skipWs input with
  | [] => Option.none
  | c :: rest =>
      if c = '"' then
        match parseStringBody rest with
        | some (kcs, r1) =>
            match skipWs r1 with
            | ':' :: r2 =>
                match parseScalarValue (skipWs r2) with
                | some (v, r3) => some ((String.mk kcs, v), r3)
                | Option.none => Option.none
            | _ => Option.none
        | Option.none => Option.none
      else Option.none

/-- The member loop after the first member: a comma introduces another member
and a closing brace ends the object.  The fuel only bounds the number of loop
iterations of the embedding; every iteration consumes at least the comma, so
a fuel exceeding the input length never runs out. -/
def parseMembersAux : Nat → List Char → List (String × PyVal) →
    Option (List (String × PyVal) × List Char)
  | 0, _, _ => Option.none
  | fuel + 1, input, acc =>
      match skipWs input with
      | [] => Option.none
      | c :: rest =>
          if c = rbrace then some (acc.reverse, rest)
          else if c = ',' then
            match parseMember rest with
            | some (kv, r2) => parseMembersAux fuel r2 (kv :: acc)
            | Option.none => Option.none
          else Option.none

/-- Python dict insertion: an existing key keeps its position and takes the
new value, a new key is appended. -/
def pyDictInsert (acc : List (String × PyVal)) (k : String) (v : PyVal) :
    List (String × PyVal) :=
  if (acc.lookup k).isSome then acc.map (fun kv => if kv.1 = k then (k, v) else kv)
  else acc ++ [(k, v)]

/-- Python dict construction from parsed members. -/
def pyDictFromPairs (l : List (String × PyVal)) : List (String × PyVal) :=
  l.foldl (fun acc kv => pyDictInsert acc kv.1 kv.2) []

/-- `json.loads` over an object document of scalars: the top-level braces,
the members, Python dict construction, and the requirement that nothing but
whitespace follows the document. -/
def jsonLoadsFlatChars (input : List Char) : Option PyVal :=
  match skipWs input with
  | [] => Option.none
  | c :: rest =>
      if c = lbrace then
        match skipWs rest with
        | [] => Option.none
        | c2 :: rest2 =>
            if c2 = rbrace then
              if (skipWs rest2).isEmpty then some (PyVal.dict []) else Option.none
            else
              match parseMember (c2 :: rest2) with
              | some (kv, r2) =>
                  match parseMembersAux (r2.length + 1) r2 [kv] with
                  | some (kvs, r3) =>
                      if (skipWs r3).isEmpty then some (PyVal.dict (pyDictFromPairs kvs))
                      else Option.none
                  | Option.none => Option.none
              | Option.none => Option.none
      else Option.none

/-- `JSONConverter._decode` on a string. -/
def jsonLoadsFlat (s : String) : Option PyVal := jsonLoadsFlatChars s.data

/-- A JSON-representable scalar among the embedded values. -/
def isScalar : PyVal → Bool
  | .none => true
  | .bool _ => true
  | .int _ => true
  | .str _ => true
  | _ => false

/-- A string free of control characters (which the modelled encoder would
have to `\\u`-escape). -/
def strOk (s : String) : Bool := s.data.all (fun c => 32 ≤ c.toNat)

/-- A scalar whose textual content is control-free. -/
def scalarOk : PyVal → Bool
  | .str s => strOk s
  | .none => true
  | .bool _ => true
  | .int _ => true
  | _ => false

/-- Every entry of the mapping is a control-free key with a control-free
scalar value. -/
def entriesOk (kvs : List (String × PyVal)) : Bool :=
  kvs.all (fun kv => strOk kv.1 && isScalar kv.2 && scalarOk kv.2)

theorem skipWs_cons_false {c : Char} (h : isJsonWs c = false) (r : List Char) :
    skipWs (c :: r) = c :: r := by
  simp [skipWs, h]

theorem parseStringBody_encoded : ∀ (s rest : List Char),
    s.all (fun c => 32 ≤ c.toNat) = true →
    parseStringBody (jsonEscapeChars s ++ '"' :: rest) = some (s, rest) := by
  intro s
  induction s with
  | nil =>
      intro rest _
      rw [show jsonEscapeChars [] ++ '"' :: rest = '"' :: rest by simp [jsonEscapeChars]]
      rw [parseStringBody.eq_def]
      simp
  | cons c cs ih =>
      intro rest hok
      rw [List.all_cons, Bool.and_eq_true] at hok
      obtain ⟨hc32, hcs⟩ := hok
      by_cases hq : c = '"'
      · subst hq
        simp only [jsonEscapeChars, jsonEscapeChar, if_pos rfl, List.cons_append]
        rw [parseStringBody.eq_def]
        simp [jsonUnescape, ih rest hcs]
      · by_cases hb : c = '\\'
        · subst hb
          simp only [jsonEscapeChars, jsonEscapeChar, if_pos rfl,
                     if_neg (by decide : ¬(('\\' : Char) = '"')), List.cons_append]
          rw [parseStringBody.eq_def]
          simp [jsonUnescape, ih rest hcs]
        · have h32 : 32 ≤ c.toNat := by simpa using hc32
          simp only [jsonEscapeChars, jsonEscapeChar, if_neg hq, if_neg hb, List.cons_append,
                     List.singleton_append]
          rw [parseStringBody.eq_def]
          simp [hq, hb, h32, ih rest hcs]

theorem digitVal_digitChar (d : Nat) (hd : d < 10) : digitVal (digitChar d) = some d := by
  interval_cases d <;> rfl

theorem digitChar_not_special (d : Nat) (hd : d < 10) :
    digitChar d ≠ '"' ∧ digitChar d ≠ 't' ∧ digitChar d ≠ 'f' ∧ digitChar d ≠ 'n' ∧
    digitChar d ≠ '-' ∧ isJsonWs (digitChar d) = false := by
  interval_cases d <;> exact ⟨by decide, by decide, by decide, by decide, by decide, by decide⟩

/-- The character following the parsed token, when any, is not a digit. -/
def nextNonDigit : List Char → Prop
  | [] => True
  | c :: _ => digitVal c = Option.none

theorem takeDigits_encoded : ∀ (ds : List Nat) (rest : List Char),
    (∀ d ∈ ds, d < 10) → nextNonDigit rest →
    takeDigits (ds.map digitChar ++ rest) = (ds, rest) := by
  intro ds
  induction ds with
  | nil =>
      intro rest _ hrest
      cases rest with
      | nil => rfl
      | cons c r =>
          simp only [nextNonDigit] at hrest
          simp [takeDigits, hrest]
  | cons d ds ih =>
      intro rest hall hrest
      have hd : d < 10 := hall d (List.mem_cons_self _ _)
      have hds : ∀ x ∈ ds, x < 10 := fun x hx => hall x (List.mem_cons_of_mem _ hx)
      simp [takeDigits, digitVal_digitChar d hd, ih rest hds hrest]

theorem foldr_mul_add_eq_ofDigits : ∀ L : List Nat,
    L.foldr (fun d a => a * 10 + d) 0 = Nat.ofDigits 10 L := by
  intro L
  induction L with
  | nil => simp [Nat.ofDigits_nil]
  | cons d L ih =>
      rw [List.foldr_cons, ih, Nat.ofDigits_cons]
      ring

theorem natFromDigits_natDigitsBE (m : Nat) : natFromDigits (natDigitsBE m) = m := by
  unfold natFromDigits natDigitsBE
  by_cases hm : m = 0
  · subst hm; rfl
  · rw [if_neg hm, List.foldl_reverse, foldr_mul_add_eq_ofDigits, Nat.ofDigits_digits]

theorem natDigitsBE_ne_nil (m : Nat) : natDigitsBE m ≠ [] := by
  unfold natDigitsBE
  by_cases hm : m = 0
  · simp [hm]
  · simp [hm, Nat.digits_ne_nil_iff_ne_zero]

theorem natDigitsBE_lt (m : Nat) : ∀ d ∈ natDigitsBE m, d < 10 := by
  intro d hd
  unfold natDigitsBE at hd
  by_cases hm : m = 0
  · rw [if_pos hm] at hd
    simp at hd
    omega
  · rw [if_neg hm, List.mem_reverse] at hd
    exact Nat.digits_lt_base (by norm_num) hd

theorem natDigitsBE_cons (m : Nat) : ∃ d ds, natDigitsBE m = d :: ds ∧ d < 10 ∧
    (∀ x ∈ ds, x < 10) := by
  cases h : natDigitsBE m with
  | nil => exact absurd h (natDigitsBE_ne_nil m)
  | cons d ds =>
      refine ⟨d, ds, rfl, ?_, ?_⟩
      · exact natDigitsBE_lt m d (h ▸ List.mem_cons_self _ _)
      · intro x hx
        exact natDigitsBE_lt m x (h ▸ List.mem_cons_of_mem _ hx)

theorem parseIntToken_nat (m : Nat) (rest : List Char) (hrest : nextNonDigit rest) :
    parseIntToken (natToChars m ++ rest) = some ((m : Int), rest) := by
  obtain ⟨d, ds, hds, hd, hall⟩ := natDigitsBE_cons m
  have hspec := digitChar_not_special d hd
  have htd : takeDigits ((d :: ds).map digitChar ++ rest) = (d :: ds, rest) :=
    takeDigits_encoded (d :: ds) rest
      (by intro x hx; rcases List.mem_cons.1 hx with h | h
          · exact h ▸ hd
          · exact hall x h) hrest
  unfold natToChars
  rw [hds]
  simp only [List.map_cons, List.cons_append, parseIntToken, if_neg hspec.2.2.2.2.1]
  rw [show digitChar d :: (ds.map digitChar ++ rest) = (d :: ds).map digitChar ++ rest by
        simp]
  rw [htd]
  have hnum : natFromDigits (d :: ds) = m := by
    rw [← hds]; exact natFromDigits_natDigitsBE m
  simp [hnum]

theorem parseIntToken_int (n : Int) (rest : List Char) (hrest : nextNonDigit rest) :
    parseIntToken (intToChars n ++ rest) = some (n, rest) := by
  unfold intToChars
  by_cases hn : n < 0
  · rw [if_pos hn]
    obtain ⟨d, ds, hds, hd, hall⟩ := natDigitsBE_cons n.natAbs
    have htd : takeDigits ((d :: ds).map digitChar ++ rest) = (d :: ds, rest) :=
      takeDigits_encoded (d :: ds) rest
        (by intro x hx; rcases List.mem_cons.1 hx with h | h
            · exact h ▸ hd
            · exact hall x h) hrest
    unfold natToChars
    rw [hds]
    simp only [List.cons_append, parseIntToken, if_pos rfl]
    rw [htd]
    have hnum : natFromDigits (d :: ds) = n.natAbs := by
      rw [← hds]; exact natFromDigits_natDigitsBE n.natAbs
    simp only [hnum]
    have hneg : -((n.natAbs : Int)) = n := by omega
    rw [hneg]
    simp
  · rw [if_neg hn]
    have h := parseIntToken_nat n.natAbs rest hrest
    rw [h]
    have : (n.natAbs : Int) = n := by omega
    simp [this]

theorem intToChars_head (n : Int) : ∃ c cs, intToChars n = c :: cs ∧
    c ≠ '"' ∧ c ≠ 't' ∧ c ≠ 'f' ∧ c ≠ 'n' ∧ isJsonWs c = false := by
  unfold intToChars
  by_cases hn : n < 0
  · rw [if_pos hn]
    exact ⟨'-', natToChars n.natAbs, rfl, by decide, by decide, by decide, by decide, by decide⟩
  · rw [if_neg hn]
    obtain ⟨d, ds, hds, hd, -⟩ := natDigitsBE_cons n.natAbs
    have h := digitChar_not_special d hd
    refine ⟨digitChar d, ds.map digitChar, ?_, h.1, h.2.1, h.2.2.1, h.2.2.2.1, h.2.2.2.2.2⟩
    rw [natToChars, hds, List.map_cons]

theorem parseScalarValue_encoded (v : PyVal) (rest : List Char)
    (hs : isScalar v = true) (hok : scalarOk v = true) (hrest : nextNonDigit rest) :
    parseScalarValue (jsonEncodeChars v ++ rest) = some (v, rest) := by
  cases v with
  | none => simp [jsonEncodeChars, parseScalarValue]
  | bool b => cases b <;> simp [jsonEncodeChars, parseScalarValue]
  | str s =>
      have hall : s.data.all (fun c => 32 ≤ c.toNat) = true := hok
      simp only [jsonEncodeChars, jsonEncodeStringChars, List.cons_append, List.append_assoc,
                 List.singleton_append]
      simp [parseScalarValue, parseStringBody_encoded s.data rest hall]
  | int n =>
      obtain ⟨c, cs, hrep, hq, ht, hf, hn, -⟩ := intToChars_head n
      have hint := parseIntToken_int n rest hrest
      simp only [jsonEncodeChars]
      rw [hrep, List.cons_append]
      simp only [parseScalarValue, if_neg hq, if_neg ht, if_neg hf, if_neg hn]
      rw [← List.cons_append, ← hrep, hint]
  | list xs => simp [isScalar] at hs
  | dict xs => simp [isScalar] at hs

theorem skipWs_encodeScalar (v : PyVal) (rest : List Char) (hs : isScalar v = true) :
    skipWs (jsonEncodeChars v ++ rest) = jsonEncodeChars v ++ rest := by
  cases v with
  | none => simp [jsonEncodeChars, skipWs, isJsonWs]
  | bool b => cases b <;> simp [jsonEncodeChars, skipWs, isJsonWs]
  | str s =>
      simp only [jsonEncodeChars, jsonEncodeStringChars, List.cons_append]
      exact skipWs_cons_false (by decide) _
  | int n =>
      obtain ⟨c, cs, hrep, -, -, -, -, hws⟩ := intToChars_head n
      simp only [jsonEncodeChars]
      rw [hrep, List.cons_append]
      exact skipWs_cons_false hws _
  | list xs => simp [isScalar] at hs
  | dict xs => simp [isScalar] at hs

/-- Reduction of `parseMember` at an input opening with a quote (purely
definitional). -/
theorem parseMember_quote (input : List Char) :
    parseMember ('"' :: input) =
      match parseStringBody input with
      | some (kcs, r1) =>
          match skipWs r1 with
          | ':' :: r2 =>
              match parseScalarValue (skipWs r2) with
              | some (v, r3) => some ((String.mk kcs, v), r3)
              | Option.none => Option.none
          | _ => Option.none
      | Option.none => Option.none := rfl

theorem parseMember_encoded (k : String) (v : PyVal) (rest : List Char)
    (hk : strOk k = true) (hs : isScalar v = true) (hv : scalarOk v = true)
    (hrest : nextNonDigit rest) :
    parseMember (jsonEncodeStringChars k.data ++ ':' :: ' ' :: (jsonEncodeChars v ++ rest)) =
      some ((k, v), rest) := by
  have hall : k.data.all (fun c => 32 ≤ c.toNat) = true := hk
  have hsw : skipWs (' ' :: (jsonEncodeChars v ++ rest)) = jsonEncodeChars v ++ rest := by
    rw [skipWs, if_pos (by decide : isJsonWs ' ' = true)]
    exact skipWs_encodeScalar v rest hs
  have hsv := parseScalarValue_encoded v rest hs hv hrest
  have hcolon := skipWs_cons_false (show isJsonWs ':' = false from by decide)
  simp only [jsonEncodeStringChars, List.cons_append, List.append_assoc,
             List.singleton_append, List.nil_append]
  rw [parseMember_quote]
  rw [parseStringBody_encoded k.data (':' :: ' ' :: (jsonEncodeChars v ++ rest)) hall]
  simp [hcolon, hsw, hsv]

/-- A member of a JSON object may be preceded by whitespace. -/
theorem parseMember_cons_space (input : List Char) :
    parseMember (' ' :: input) = parseMember input := by
  unfold parseMember
  rw [show skipWs (' ' :: input) = skipWs input by rw [skipWs]; simp [isJsonWs]]

theorem nextNonDigit_dictRest (kvs : List (String × PyVal)) :
    nextNonDigit (jsonEncodeDictRest kvs ++ [rbrace]) := by
  cases kvs with
  | nil => simp [jsonEncodeDictRest, nextNonDigit, digitVal, rbrace]
  | cons kv kvs =>
      obtain ⟨k, v⟩ := kv
      simp [jsonEncodeDictRest, nextNonDigit, digitVal]

/-- Reduction of the member loop at a comma (purely definitional). -/
theorem parseMembersAux_comma (f : Nat) (input : List Char) (acc : List (String × PyVal)) :
    parseMembersAux (f + 1) (',' :: input) acc =
      match parseMember input with
      | some (kv, r2) => parseMembersAux f r2 (kv :: acc)
      | Option.none => Option.none := rfl

theorem parseMembersAux_encoded : ∀ (kvs : List (String × PyVal))
    (acc : List (String × PyVal)) (fuel : Nat),
    kvs.length < fuel → entriesOk kvs = true →
    parseMembersAux fuel (jsonEncodeDictRest kvs ++ [rbrace]) acc =
      some (acc.reverse ++ kvs, []) := by
  intro kvs
  induction kvs with
  | nil =>
      intro acc fuel hfuel _
      obtain ⟨f, rfl⟩ : ∃ f, fuel = f + 1 := ⟨fuel - 1, by omega⟩
      simp only [jsonEncodeDictRest, List.nil_append]
      rw [parseMembersAux]
      rw [skipWs_cons_false (by decide)]
      simp
  | cons kv kvs ih =>
      obtain ⟨k, v⟩ := kv
      intro acc fuel hfuel hok
      rw [entriesOk, List.all_cons, Bool.and_eq_true] at hok
      obtain ⟨hkv, hoks⟩ := hok
      rw [Bool.and_eq_true, Bool.and_eq_true] at hkv
      obtain ⟨⟨hk, hs⟩, hv⟩ := hkv
      obtain ⟨f, rfl⟩ : ∃ f, fuel = f + 1 := ⟨fuel - 1, by omega⟩
      have hpm : parseMember (' ' ::
          ((jsonEncodeStringChars k.data ++ ':' :: ' ' :: jsonEncodeChars v) ++
            (jsonEncodeDictRest kvs ++ [rbrace]))) =
          some ((k, v), jsonEncodeDictRest kvs ++ [rbrace]) := by
        rw [parseMember_cons_space]
        rw [show (jsonEncodeStringChars k.data ++ ':' :: ' ' :: jsonEncodeChars v) ++
              (jsonEncodeDictRest kvs ++ [rbrace]) =
            jsonEncodeStringChars k.data ++ ':' :: ' ' ::
              (jsonEncodeChars v ++ (jsonEncodeDictRest kvs ++ [rbrace])) by
          simp [List.append_assoc]]
        exact parseMember_encoded k v (jsonEncodeDictRest kvs ++ [rbrace]) hk hs hv
          (nextNonDigit_dictRest kvs)
      simp only [jsonEncodeDictRest, List.cons_append]
      rw [parseMembersAux_comma]
      simp only [List.append_assoc] at hpm ⊢
      rw [hpm]
      have hih := ih ((k, v) :: acc) f (by simpa using Nat.lt_of_succ_lt_succ hfuel) hoks
      simp only [hih]
      simp

theorem lookup_none_of_not_mem_keys (k : String) :
    ∀ l : List (String × PyVal), k ∉ l.map Prod.fst → l.lookup k = Option.none := by
  intro l
  induction l with
  | nil => intro _; rfl
  | cons kv l ih =>
      obtain ⟨k1, v1⟩ := kv
      intro h
      simp only [List.map_cons, List.mem_cons] at h
      push_neg at h
      have hne : (k == k1) = false := beq_eq_false_iff_ne.2 h.1
      simp [List.lookup, hne, ih h.2]

theorem pyDictFoldl_nodup : ∀ (l acc : List (String × PyVal)),
    ((acc ++ l).map Prod.fst).Nodup →
    l.foldl (fun a kv => pyDictInsert a kv.1 kv.2) acc = acc ++ l := by
  intro l
  induction l with
  | nil => intro acc _; simp
  | cons kv l ih =>
      obtain ⟨k, v⟩ := kv
      intro acc hnd
      have hk : k ∉ acc.map Prod.fst := by
        intro hc
        rw [List.map_append, List.nodup_append] at hnd
        exact hnd.2.2 hc (by simp)
      have hins : pyDictInsert acc k v = acc ++ [(k, v)] := by
        unfold pyDictInsert
        rw [lookup_none_of_not_mem_keys k acc hk]
        simp
      rw [List.foldl_cons]
      simp only [hins]
      have hnd2 : (((acc ++ [(k, v)]) ++ l).map Prod.fst).Nodup := by
        simpa [List.append_assoc] using hnd
      rw [ih (acc ++ [(k, v)]) hnd2]
      simp

theorem pyDictFromPairs_eq_self (l : List (String × PyVal))
    (h : (l.map Prod.fst).Nodup) : pyDictFromPairs l = l := by
  have := pyDictFoldl_nodup l [] (by simpa using h)
  simpa [pyDictFromPairs] using this

theorem jsonEncodeDictRest_length (kvs : List (String × PyVal)) :
    kvs.length ≤ (jsonEncodeDictRest kvs).length := by
  induction kvs with
  | nil => simp [jsonEncodeDictRest]
  | cons kv kvs ih =>
      obtain ⟨k, v⟩ := kv
      simp only [jsonEncodeDictRest, List.length_cons, List.cons_append, List.length_append]
      omega

/-- Reduction of the decoder at an opening brace followed by a quote (purely
definitional). -/
theorem jsonLoadsFlatChars_quote (input : List Char) :
    jsonLoadsFlatChars (lbrace :: '"' :: input) =
      match parseMember ('"' :: input) with
      | some (kv, r2) =>
          match parseMembersAux (r2.length + 1) r2 [kv] with
          | some (kvs, r3) =>
              if (skipWs r3).isEmpty then some (PyVal.dict (pyDictFromPairs kvs))
              else Option.none
          | Option.none => Option.none
      | Option.none => Option.none := rfl

/-- Claim C8: encoding a mapping of JSON-representable scalars with the JSON
converter and decoding the produced text yields an equal mapping (keys
distinct as in every Python dict; string contents control-free, since
control characters would be `\\u`-escaped, a form outside this model). -/
theorem c8_json_roundtrip (entries : List (String × PyVal))
    (hok : entriesOk entries = true) (hnd : (entries.map Prod.fst).Nodup) :
    jsonLoadsFlat (jsonEncode (PyVal.dict entries)) = some (PyVal.dict entries) := by
  cases entries with
  | nil =>
      have h1 : jsonEncodeChars (PyVal.dict []) = lbrace :: rbrace :: [] := by
        simp [jsonEncodeChars]
      rw [show jsonLoadsFlat (jsonEncode (PyVal.dict [])) =
            jsonLoadsFlatChars (jsonEncodeChars (PyVal.dict [])) from rfl, h1]
      rfl
  | cons kv kvs =>
      obtain ⟨k, v⟩ := kv
      rw [entriesOk, List.all_cons, Bool.and_eq_true] at hok
      obtain ⟨hkv, hoks⟩ := hok
      rw [Bool.and_eq_true, Bool.and_eq_true] at hkv
      obtain ⟨⟨hk, hs⟩, hv⟩ := hkv
      have hpm : parseMember
          ('"' :: (jsonEscapeChars k.data ++ '"' :: ':' :: ' ' ::
            (jsonEncodeChars v ++ (jsonEncodeDictRest kvs ++ [rbrace])))) =
          some ((k, v), jsonEncodeDictRest kvs ++ [rbrace]) := by
        have := parseMember_encoded k v (jsonEncodeDictRest kvs ++ [rbrace]) hk hs hv
          (nextNonDigit_dictRest kvs)
        simpa [jsonEncodeStringChars, List.cons_append, List.append_assoc] using this
      have hfuel : kvs.length < (jsonEncodeDictRest kvs ++ [rbrace]).length + 1 := by
        have := jsonEncodeDictRest_length kvs
        simp only [List.length_append, List.length_cons, List.length_nil]
        omega
      have hma := parseMembersAux_encoded kvs [(k, v)]
        ((jsonEncodeDictRest kvs ++ [rbrace]).length + 1) hfuel hoks
      have hnd2 : (((k, v) :: kvs).map Prod.fst).Nodup := hnd
      have hdict := pyDictFromPairs_eq_self ((k, v) :: kvs) hnd2
      have henc : jsonEncodeChars (PyVal.dict ((k, v) :: kvs)) =
          lbrace :: ('"' :: (jsonEscapeChars k.data ++ '"' :: ':' :: ' ' ::
            (jsonEncodeChars v ++ (jsonEncodeDictRest kvs ++ [rbrace])))) := by
        simp [jsonEncodeChars, jsonEncodeStringChars, List.cons_append, List.append_assoc]
      rw [show jsonLoadsFlat (jsonEncode (PyVal.dict ((k, v) :: kvs))) =
            jsonLoadsFlatChars (jsonEncodeChars (PyVal.dict ((k, v) :: kvs))) from rfl, henc]
      rw [jsonLoadsFlatChars_quote]
      rw [hpm]
      simp only [hma]
      simp [hdict, skipWs]

/-- Claim C8 witness: the round trip at the concrete mapping
`{"a": 1, "b": "x"}`. -/
theorem c8_json_roundtrip_witness :
    jsonLoadsFlat (jsonEncode (PyVal.dict [("a", PyVal.int 1), ("b", PyVal.str "x")])) =
      some (PyVal.dict [("a", PyVal.int 1), ("b", PyVal.str "x")]) :=
  c8_json_roundtrip [("a", PyVal.int 1), ("b", PyVal.str "x")] (by decide) (by decide)

end Pyston
